import Mathlib

/-!
Verification of the chunked binary transfer core of `src/util.js`
(the `Util` class of the SkyWay JS SDK).

The embedding models byte sequences (`Blob` contents / `ArrayBuffer`s) as
lists of naturals, the `Util` instance as an explicit record of its data
fields, and the two core operations:

* `Util.chunk`        — the Fragmenter (src/util.js lines 245-269);
* `Util.joinArrayBuffers` — the byte-combination primitive
                            (src/util.js lines 276-287).

The `while` loop of `chunk` is embedded with an explicit fuel argument
(`chunkLoop`); `none` means the loop did not finish within the given number
of iterations, which is how nontermination for a zero fragment size becomes
observable.
-/

/-- A byte sequence: the contents of a `Blob` or an `ArrayBuffer`. -/
abbrev Bytes := List Nat

/-- One fragment record, as built by `Util.chunk` (src/util.js lines 255-260):
`{parentMsgId, chunkIndex, chunkData, totalChunks}`. -/
structure Chunk where
  parentMsgId : Nat
  chunkIndex : Nat
  chunkData : Bytes
  totalChunks : Nat
deriving Repr, DecidableEq

/-- Embeds `blob.slice(start, end)` of the Blob API: the bytes at positions
`[start, stop)`, clamped to the blob's size. -/
def blobSlice (blob : Bytes) (start stop : Nat) : Bytes :=
  (blob.drop start).take (stop - start)

/-- The data fields of a `Util` instance that the embedded core reads or
writes (src/util.js lines 56-146).  Host-API glue (`pack`, `browser`,
`supports`, the enum tables) is outside the embedded core.  `chunkedMTU` and
`chunkedCount` are `Option`s because the constructor of src/util.js does not
assign them (`none` models the JS `undefined`). -/
structure Util where
  CLOUD_HOST : String
  CLOUD_PORT : Nat
  TURN_HOST : String
  TURN_PORT : Nat
  debug : Bool
  maxChunkSize : Nat
  reconnectionAttempts : Nat
  sendInterval : Nat
  logLevel : Nat
  chunkedMTU : Option Nat
  chunkedCount : Option Nat
deriving Repr, DecidableEq

/-- The state established by the `Util` constructor (src/util.js lines
56-146): in particular `maxChunkSize = 16300` (line 72) and
`_logLevel = LogLevel.NONE.value = 0` (line 145).  The constructor assigns
neither `chunkedMTU` nor `chunkedCount`. -/
def Util.init : Util :=
  { CLOUD_HOST := "skyway.io"
    CLOUD_PORT := 443
    TURN_HOST := "turn.skyway.io"
    TURN_PORT := 443
    debug := false
    maxChunkSize := 16300
    reconnectionAttempts := 2
    sendInterval := 1
    logLevel := 0
    chunkedMTU := none
    chunkedCount := none }

/-- Modelled from the spec: the data-channel layer — repository code outside
`src/`, referenced by the constructor comment "The actual chunk size is
adjusted in dataChannel" (src/util.js line 71) — initializes the Fragmenter's
working fields before the Fragmenter is used.  Per the spec, the
fragment-size limit is "a configuration constant, default 16300 bytes"
(which is the constructor's `maxChunkSize`) and the sender's message-id
counter is a "monotonically increasing counter, starts at 0". -/
def Util.ready : Util :=
  { Util.init with
    chunkedMTU := some Util.init.maxChunkSize
    chunkedCount := some 0 }

/-- The `while (start < size)` loop of `Util.chunk` (src/util.js lines
251-266).  The three trailing arguments are the remaining fuel and the loop
variables `start` and `index`; each iteration slices
`blob.slice(start, min(size, start + mtu))`, pushes the fragment record and
advances `start` to the slice end.  `none` means the loop did not terminate
within `fuel` iterations. -/
def chunkLoop (mtu msgId total : Nat) (blob : Bytes) (size : Nat) :
    Nat → Nat → Nat → Option (List Chunk)
  | 0, start, _index => if start < size then none else some []
  | fuel + 1, start, index =>
    if start < size then
      (chunkLoop mtu msgId total blob size fuel
          (min size (start + mtu)) (index + 1)).map
        (fun rest =>
          { parentMsgId := msgId
            chunkIndex := index
            chunkData := blobSlice blob start (min size (start + mtu))
            totalChunks := total } :: rest)
    else
      some []

/-- Embeds `Util.chunk` (src/util.js lines 245-269).  It reads the instance
fields `chunkedMTU` and `chunkedCount` (returning `none` if either is still
unassigned), computes `total = Math.ceil(size / mtu)` — which for `mtu ≥ 1`
is `(size + mtu - 1) / mtu` — runs the loop, and increments `chunkedCount`.
The loop is given `blob.length` fuel, which suffices for every positive
fragment size. -/
def Util.chunk (st : Util) (blob : Bytes) : Option (List Chunk × Util) :=
  match st.chunkedMTU, st.chunkedCount with
  | some mtu, some cnt =>
    (chunkLoop mtu cnt ((blob.length + mtu - 1) / mtu) blob
        blob.length blob.length 0 0).map
      (fun chunks => (chunks, { st with chunkedCount := some (cnt + 1) }))
  | _, _ => none

/-- Repeated Fragmenter calls: runs `Util.chunk` once per payload in order,
threading the instance state through. -/
def chunkCalls (st : Util) : List Bytes → Option (List (List Chunk) × Util)
  | [] => some ([], st)
  | blob :: rest =>
    (st.chunk blob).bind (fun pr =>
      (chunkCalls pr.2 rest).map (fun qr => (pr.1 :: qr.1, qr.2)))

/-- Embeds `tmpArray.set(new Uint8Array(buffer), currPos)` (src/util.js line
283): overwrite the bytes of `arr` at positions `[pos, pos + src.length)`
with `src`. -/
def typedArraySet (arr src : Bytes) (pos : Nat) : Bytes :=
  arr.take pos ++ src ++ arr.drop (pos + src.length)

/-- The `for (let buffer of buffers)` loop of `Util.joinArrayBuffers`
(src/util.js lines 281-285): write each buffer into the output array at the
running position `currPos`. -/
def joinLoop : List Bytes → Bytes → Nat → Bytes
  | [], tmpArray, _currPos => tmpArray
  | buffer :: rest, tmpArray, currPos =>
    joinLoop rest (typedArraySet tmpArray buffer currPos)
      (currPos + buffer.length)

/-- Embeds `Util.joinArrayBuffers` (src/util.js lines 276-287): allocate a
`Uint8Array` of the summed byte length (zero-initialized, as in JS) and copy
each buffer in at its offset. -/
def Util.joinArrayBuffers (buffers : List Bytes) : Bytes :=
  joinLoop buffers
    (List.replicate (buffers.foldl (fun sum buffer => sum + buffer.length) 0) 0)
    0

example : Util.ready.chunk [1, 2, 3] =
    some ([{ parentMsgId := 0, chunkIndex := 0, chunkData := [1, 2, 3],
             totalChunks := 1 }],
          { Util.ready with chunkedCount := some 1 }) := by decide

example : Util.joinArrayBuffers [[1, 2], [], [3]] = [1, 2, 3] := by decide

/-- Ceiling division peels off one window: for positive `mtu` and `n`,
`ceil(n / mtu) = ceil((n - mtu) / mtu) + 1` (natural subtraction). -/
theorem ceil_div_step (n mtu : Nat) (h1 : 1 ≤ mtu) (hn : 1 ≤ n) :
    (n + mtu - 1) / mtu = (n - mtu + mtu - 1) / mtu + 1 := by
  rcases le_or_lt n mtu with h | h
  · have h0 : n - mtu = 0 := by omega
    rw [h0]
    have hz : (0 + mtu - 1) / mtu = 0 := Nat.div_eq_of_lt (by omega)
    rw [hz]
    exact Nat.div_eq_of_lt_le (by omega) (by omega)
  · have e1 : n + mtu - 1 = (n - 1) + mtu := by omega
    have e2 : n - mtu + mtu - 1 = n - 1 := by omega
    rw [e1, e2, Nat.add_div_right _ (by omega)]

/-- Full characterization of the fragmentation loop for a positive fragment
size: given enough fuel it terminates and returns exactly one fragment per
`mtu`-sized window of the remaining byte range. -/
theorem chunkLoop_eq (mtu msgId total : Nat) (blob : Bytes) (size : Nat)
    (h1 : 1 ≤ mtu) :
    ∀ fuel start index, size - start ≤ fuel →
      chunkLoop mtu msgId total blob size fuel start index =
        some ((List.range ((size - start + mtu - 1) / mtu)).map (fun i =>
          { parentMsgId := msgId
            chunkIndex := index + i
            chunkData := blobSlice blob (start + mtu * i)
              (min size (start + mtu * i + mtu))
            totalChunks := total })) := by
  intro fuel
  induction fuel with
  | zero =>
    intro start index hle
    have hs : ¬ start < size := by omega
    have hc : (size - start + mtu - 1) / mtu = 0 := by
      have h0 : size - start = 0 := by omega
      rw [h0]
      exact Nat.div_eq_of_lt (by omega)
    simp only [chunkLoop, if_neg hs, hc, List.range_zero, List.map_nil]
  | succ fuel ih =>
    intro start index hle
    by_cases hs : start < size
    · have hn : 1 ≤ size - start := by omega
      have hstep : size - min size (start + mtu) = size - start - mtu := by
        omega
      have hfuel : size - min size (start + mtu) ≤ fuel := by omega
      have hK : (size - start + mtu - 1) / mtu
          = (size - min size (start + mtu) + mtu - 1) / mtu + 1 := by
        rw [hstep]
        exact ceil_div_step (size - start) mtu h1 hn
      simp only [chunkLoop, if_pos hs]
      rw [ih (min size (start + mtu)) (index + 1) hfuel]
      rw [hK, List.range_succ_eq_map, List.map_cons, List.map_map]
      simp only [Option.map_some', Option.some.injEq, List.cons.injEq]
      refine ⟨?_, ?_⟩
      · simp
      · by_cases hA : start + mtu ≤ size
        · have hmin : min size (start + mtu) = start + mtu := by omega
          refine List.map_congr_left (fun i _hi => ?_)
          simp only [Function.comp_apply, Nat.succ_eq_add_one, hmin,
            Chunk.mk.injEq]
          refine ⟨trivial, by omega, ?_, trivial⟩
          have e1 : start + mtu + mtu * i = start + mtu * (i + 1) := by ring
          rw [e1]
        · have hmin : min size (start + mtu) = size := by omega
          have hK0 : (size - min size (start + mtu) + mtu - 1) / mtu = 0 := by
            rw [hmin]
            have h0 : size - size = 0 := by omega
            rw [h0]
            exact Nat.div_eq_of_lt (by omega)
          rw [hK0]
          simp
    · have h0 : size - start = 0 := by omega
      have hc : (size - start + mtu - 1) / mtu = 0 := by
        rw [h0]
        exact Nat.div_eq_of_lt (by omega)
      simp only [chunkLoop, if_neg hs, hc, List.range_zero, List.map_nil]

/-- Concatenating the `chunkData` of the fragments produced by the loop, in
emission order, gives back exactly the remaining byte range of the payload. -/
theorem chunkLoop_flatten (mtu msgId total : Nat) (blob : Bytes) :
    ∀ fuel start index cs,
      chunkLoop mtu msgId total blob blob.length fuel start index = some cs →
      (cs.map Chunk.chunkData).flatten =
        (blob.drop start).take (blob.length - start) := by
  intro fuel
  induction fuel with
  | zero =>
    intro start index cs h
    by_cases hs : start < blob.length
    · simp [chunkLoop, if_pos hs] at h
    · simp only [chunkLoop, if_neg hs, Option.some.injEq] at h
      subst h
      have h0 : blob.length - start = 0 := by omega
      simp [h0]
  | succ fuel ih =>
    intro start index cs h
    by_cases hs : start < blob.length
    · simp only [chunkLoop, if_pos hs] at h
      cases hrec : chunkLoop mtu msgId total blob blob.length fuel
          (min blob.length (start + mtu)) (index + 1) with
      | none => rw [hrec] at h; simp at h
      | some rest =>
        rw [hrec] at h
        simp only [Option.map_some', Option.some.injEq] at h
        subst h
        have ihr := ih _ _ _ hrec
        simp only [List.map_cons, List.flatten_cons, ihr, blobSlice]
        have hsum : (min blob.length (start + mtu) - start)
            + (blob.length - min blob.length (start + mtu))
            = blob.length - start := by omega
        rw [← hsum, List.take_add]
        congr 1
        rw [List.drop_drop]
        have e1 : start + (min blob.length (start + mtu) - start)
            = min blob.length (start + mtu) := by omega
        rw [e1]
    · simp only [chunkLoop, if_neg hs, Option.some.injEq] at h
      subst h
      have h0 : blob.length - start = 0 := by omega
      simp [h0]

/-- Full characterization of a `Util.chunk` call for a positive fragment
size `mtu`: it returns `ceil(len / mtu)` fragments, the `i`-th being the
byte window `[mtu * i, mtu * i + mtu)`, and bumps `chunkedCount` by one. -/
theorem chunk_eq (st : Util) (mtu cnt : Nat) (blob : Bytes)
    (hm : st.chunkedMTU = some mtu) (hc : st.chunkedCount = some cnt)
    (h1 : 1 ≤ mtu) :
    st.chunk blob = some
      ((List.range ((blob.length + mtu - 1) / mtu)).map (fun i =>
        { parentMsgId := cnt
          chunkIndex := i
          chunkData := blobSlice blob (mtu * i)
            (min blob.length (mtu * i + mtu))
          totalChunks := (blob.length + mtu - 1) / mtu }),
       { st with chunkedCount := some (cnt + 1) }) := by
  simp only [Util.chunk, hm, hc]
  rw [chunkLoop_eq mtu cnt ((blob.length + mtu - 1) / mtu) blob blob.length h1
    blob.length 0 0 (by omega)]
  simp only [Option.map_some', Nat.sub_zero, Nat.zero_add]

/-- Writing `src` into `arr` at an in-range position preserves the length. -/
theorem typedArraySet_length (arr src : Bytes) (pos : Nat)
    (h : pos + src.length ≤ arr.length) :
    (typedArraySet arr src pos).length = arr.length := by
  simp only [typedArraySet, List.length_append, List.length_take,
    List.length_drop]
  omega

/-- Taking the written prefix after an in-range write returns the original
prefix followed by the written bytes. -/
theorem typedArraySet_take (arr src : Bytes) (pos : Nat)
    (h : pos + src.length ≤ arr.length) :
    (typedArraySet arr src pos).take (pos + src.length) =
      arr.take pos ++ src := by
  rw [typedArraySet]
  exact List.take_left' (by
    simp only [List.length_append, List.length_take]
    omega)

/-- Dropping at or beyond the written range after an in-range write is the
same as dropping from the original array. -/
theorem typedArraySet_drop (arr src : Bytes) (pos n : Nat)
    (h : pos + src.length ≤ arr.length) (hn : pos + src.length ≤ n) :
    (typedArraySet arr src pos).drop n = arr.drop n := by
  rw [typedArraySet, List.drop_append_eq_append_drop]
  have hL : (arr.take pos ++ src).length = pos + src.length := by
    simp only [List.length_append, List.length_take]
    omega
  rw [List.drop_eq_nil_of_le (by omega), hL, List.nil_append, List.drop_drop]
  have e1 : pos + src.length + (n - (pos + src.length)) = n := by omega
  rw [e1]

/-- Invariant of the copy loop of `Util.joinArrayBuffers`: writing the
buffers sequentially from position `currPos` into a large enough array
fills the range `[currPos, currPos + totalLength)` with their
concatenation and leaves the rest of the array unchanged. -/
theorem joinLoop_eq :
    ∀ (buffers : List Bytes) (tmpArray : Bytes) (currPos : Nat),
      currPos + (buffers.map List.length).sum ≤ tmpArray.length →
      joinLoop buffers tmpArray currPos =
        tmpArray.take currPos ++ buffers.flatten ++
          tmpArray.drop (currPos + (buffers.map List.length).sum) := by
  intro buffers
  induction buffers with
  | nil =>
    intro tmp pos _h
    simp only [joinLoop, List.map_nil, List.sum_nil, List.flatten_nil,
      List.append_nil, Nat.add_zero]
    rw [List.take_append_drop]
  | cons b rest ih =>
    intro tmp pos h
    have hb : pos + b.length ≤ tmp.length := by
      simp only [List.map_cons, List.sum_cons] at h
      omega
    have hlen : (typedArraySet tmp b pos).length = tmp.length :=
      typedArraySet_length tmp b pos hb
    simp only [joinLoop]
    rw [ih (typedArraySet tmp b pos) (pos + b.length) (by
      rw [hlen]
      simp only [List.map_cons, List.sum_cons] at h
      omega)]
    rw [typedArraySet_take tmp b pos hb,
      typedArraySet_drop tmp b pos _ hb (by omega)]
    simp only [List.map_cons, List.sum_cons, List.flatten_cons,
      List.append_assoc]
    have e1 : pos + b.length + (rest.map List.length).sum
        = pos + (b.length + (rest.map List.length).sum) := by omega
    rw [e1]

/-- The accumulator fold of src/util.js line 277 computes the summed byte
length of the buffers. -/
theorem foldl_add_length (buffers : List Bytes) :
    ∀ a : Nat,
      buffers.foldl (fun sum buffer => sum + buffer.length) a
        = a + (buffers.map List.length).sum := by
  induction buffers with
  | nil => intro a; simp
  | cons b rest ih =>
    intro a
    simp only [List.foldl_cons, List.map_cons, List.sum_cons, ih]
    omega

/-- `Util.joinArrayBuffers` concatenates its inputs in order. -/
theorem joinArrayBuffers_eq_flatten (buffers : List Bytes) :
    Util.joinArrayBuffers buffers = buffers.flatten := by
  rw [Util.joinArrayBuffers, foldl_add_length buffers 0]
  rw [joinLoop_eq buffers _ 0 (by simp)]
  simp

/-- Bounds characterizing `(n + m - 1) / m` as the ceiling of `n / m`. -/
theorem ceil_div_bounds (n m : Nat) (h1 : 1 ≤ m) :
    n ≤ m * ((n + m - 1) / m) ∧ m * ((n + m - 1) / m) < n + m := by
  have hmod := Nat.div_add_mod (n + m - 1) m
  have hlt : (n + m - 1) % m < m := Nat.mod_lt _ (by omega)
  omega

/-- Every window strictly before the last one is a full `m`-byte window. -/
theorem window_full_of_not_last (len m i : Nat) (h1 : 1 ≤ m)
    (hi : i + 1 < (len + m - 1) / m) :
    m * i + m ≤ len := by
  by_contra hcon
  push_neg at hcon
  have hx : (len + m - 1) / m < i + 2 := by
    rw [Nat.div_lt_iff_lt_mul (show 0 < m by omega)]
    have he : (i + 2) * m = m * i + m + m := by ring
    omega
  omega

/-- Behaviour of a sequence of Fragmenter calls for a positive fragment
size: every call succeeds, the `k`-th call's fragments all carry message id
`n + k`, and the counter advances by exactly one per call (also for calls
that emit zero fragments). -/
theorem chunkCalls_spec (mtu : Nat) (h1 : 1 ≤ mtu) :
    ∀ (blobs : List Bytes) (st : Util) (n : Nat),
      st.chunkedMTU = some mtu → st.chunkedCount = some n →
      ∃ css st', chunkCalls st blobs = some (css, st') ∧
        css.length = blobs.length ∧
        st'.chunkedMTU = some mtu ∧
        st'.chunkedCount = some (n + blobs.length) ∧
        ∀ k (hk : k < css.length), ∀ c ∈ css.get ⟨k, hk⟩,
          c.parentMsgId = n + k := by
  intro blobs
  induction blobs with
  | nil =>
    intro st n hm hc
    refine ⟨[], st, rfl, rfl, hm, by simpa using hc, ?_⟩
    intro k hk
    simp at hk
  | cons blob rest ih =>
    intro st n hm hc
    have hch := chunk_eq st mtu n blob hm hc h1
    obtain ⟨css, st', hcalls, hlen, hm', hc', hids⟩ :=
      ih { st with chunkedCount := some (n + 1) } (n + 1) hm rfl
    have hstep : chunkCalls st (blob :: rest) =
        some (((List.range ((blob.length + mtu - 1) / mtu)).map (fun i =>
          { parentMsgId := n
            chunkIndex := i
            chunkData := blobSlice blob (mtu * i)
              (min blob.length (mtu * i + mtu))
            totalChunks := (blob.length + mtu - 1) / mtu })) :: css, st') := by
      simp only [chunkCalls, hch, Option.some_bind, hcalls, Option.map_some']
    refine ⟨_, _, hstep, by simp [hlen], hm', ?_, ?_⟩
    · rw [hc']
      simp only [List.length_cons, Option.some.injEq]
      omega
    · intro k hk c hcmem
      cases k with
      | zero =>
        simp only [List.get_eq_getElem, List.getElem_cons_zero,
          List.mem_map] at hcmem
        obtain ⟨i, _, rfl⟩ := hcmem
        simp
      | succ k =>
        have hk' : k < css.length := by
          simp only [List.length_cons] at hk
          omega
        have hone := hids k hk' c (by
          simpa only [List.get_eq_getElem, List.getElem_cons_succ] using hcmem)
        omega

/-- The canonical fragment list of one `Util.chunk` call concatenates back
to the payload. -/
theorem chunks_flatten (mtu cnt : Nat) (blob : Bytes) (h1 : 1 ≤ mtu) :
    (((List.range ((blob.length + mtu - 1) / mtu)).map (fun i =>
      (⟨cnt, i,
        blobSlice blob (mtu * i) (min blob.length (mtu * i + mtu)),
        (blob.length + mtu - 1) / mtu⟩ : Chunk))).map
      Chunk.chunkData).flatten = blob := by
  have hl := chunkLoop_eq mtu cnt ((blob.length + mtu - 1) / mtu) blob
    blob.length h1 blob.length 0 0 (by omega)
  have hf := chunkLoop_flatten mtu cnt ((blob.length + mtu - 1) / mtu) blob
    blob.length 0 0 _ hl
  simpa using hf

/-- C1: for every payload and every positive fragment size, the Fragmenter
succeeds, its fragments carry ascending indices `0, 1, ...` in emission
order, and concatenating their `data` fields in that order with the
byte-combination primitive reproduces the payload exactly — no padding, no
truncation. -/
theorem chunk_roundtrip (st : Util) (mtu cnt : Nat) (blob : Bytes)
    (hm : st.chunkedMTU = some mtu) (hc : st.chunkedCount = some cnt)
    (h1 : 1 ≤ mtu) :
    ∃ chunks st', st.chunk blob = some (chunks, st') ∧
      (∀ i (hi : i < chunks.length), (chunks.get ⟨i, hi⟩).chunkIndex = i) ∧
      Util.joinArrayBuffers (chunks.map Chunk.chunkData) = blob := by
  refine ⟨_, _, chunk_eq st mtu cnt blob hm hc h1, ?_, ?_⟩
  · intro i hi
    simp
  · rw [joinArrayBuffers_eq_flatten]
    exact chunks_flatten mtu cnt blob h1

/-- Witness for C1 at a concrete payload and the default fragment size. -/
theorem chunk_roundtrip_witness :
    ∃ chunks st', Util.ready.chunk [7, 8, 9] = some (chunks, st') ∧
      (∀ i (hi : i < chunks.length), (chunks.get ⟨i, hi⟩).chunkIndex = i) ∧
      Util.joinArrayBuffers (chunks.map Chunk.chunkData) = [7, 8, 9] :=
  chunk_roundtrip Util.ready 16300 0 [7, 8, 9] rfl rfl (by omega)

/-- C2: the Fragmenter emits `ceil(len(P) / s)` fragments — for nonempty
`P` that count satisfies the defining ceiling bounds, and for empty `P` it
is zero (no fragment is emitted for a zero-length payload). -/
theorem chunk_count (st : Util) (mtu cnt : Nat) (blob : Bytes)
    (hm : st.chunkedMTU = some mtu) (hc : st.chunkedCount = some cnt)
    (h1 : 1 ≤ mtu) :
    ∃ chunks st', st.chunk blob = some (chunks, st') ∧
      chunks.length = (blob.length + mtu - 1) / mtu ∧
      (blob ≠ [] → blob.length ≤ mtu * chunks.length ∧
        mtu * chunks.length < blob.length + mtu) ∧
      (blob = [] → chunks.length = 0) := by
  refine ⟨_, _, chunk_eq st mtu cnt blob hm hc h1, by simp, ?_, ?_⟩
  · intro _hne
    simpa using ceil_div_bounds blob.length mtu h1
  · intro he
    subst he
    simp only [List.length_map, List.length_range, List.length_nil]
    exact Nat.div_eq_of_lt (by omega)

/-- Witness for C2 covering both a nonempty and an empty payload is not
possible in one instantiation; this one takes a nonempty two-byte payload
with fragment size 16300. -/
theorem chunk_count_witness :
    ∃ chunks st', Util.ready.chunk [4, 5] = some (chunks, st') ∧
      chunks.length = ([4, 5].length + 16300 - 1) / 16300 ∧
      ([4, 5] ≠ ([] : Bytes) → [4, 5].length ≤ 16300 * chunks.length ∧
        16300 * chunks.length < [4, 5].length + 16300) ∧
      ([4, 5] = ([] : Bytes) → chunks.length = 0) :=
  chunk_count Util.ready 16300 0 [4, 5] rfl rfl (by omega)

/-- C4: every fragment of one call carries the same `totalChunks` value,
equal to `ceil(len(P) / s)`, which is also the number of fragments the call
actually emits. -/
theorem chunk_total_field (st : Util) (mtu cnt : Nat) (blob : Bytes)
    (hm : st.chunkedMTU = some mtu) (hc : st.chunkedCount = some cnt)
    (h1 : 1 ≤ mtu) :
    ∃ chunks st', st.chunk blob = some (chunks, st') ∧
      (∀ c ∈ chunks, c.totalChunks = (blob.length + mtu - 1) / mtu) ∧
      chunks.length = (blob.length + mtu - 1) / mtu := by
  refine ⟨_, _, chunk_eq st mtu cnt blob hm hc h1, ?_, by simp⟩
  intro c hcmem
  simp only [List.mem_map] at hcmem
  obtain ⟨i, _, rfl⟩ := hcmem
  rfl

/-- Witness for C4 at a concrete payload. -/
theorem chunk_total_field_witness :
    ∃ chunks st', Util.ready.chunk [1, 2, 3, 4] = some (chunks, st') ∧
      (∀ c ∈ chunks,
        c.totalChunks = ([1, 2, 3, 4].length + 16300 - 1) / 16300) ∧
      chunks.length = ([1, 2, 3, 4].length + 16300 - 1) / 16300 :=
  chunk_total_field Util.ready 16300 0 [1, 2, 3, 4] rfl rfl (by omega)

/-- C7: the byte-combination primitive returns the concatenation of its
input buffers in the given order, with total length the sum of the input
lengths (this also covers the empty input sequence). -/
theorem joinArrayBuffers_concat (buffers : List Bytes) :
    Util.joinArrayBuffers buffers = buffers.flatten ∧
    (Util.joinArrayBuffers buffers).length = (buffers.map List.length).sum := by
  refine ⟨joinArrayBuffers_eq_flatten buffers, ?_⟩
  rw [joinArrayBuffers_eq_flatten buffers, List.length_flatten]

/-- Witness for C7 at a concrete buffer sequence. -/
theorem joinArrayBuffers_concat_witness :
    Util.joinArrayBuffers [[1], [2, 3], []] = [[1], [2, 3], []].flatten ∧
    (Util.joinArrayBuffers [[1], [2, 3], []]).length =
      ([[1], [2, 3], []].map List.length).sum :=
  joinArrayBuffers_concat [[1], [2, 3], []]

/-- C3: every fragment's `data` is at most `s` bytes, every fragment except
possibly the last is exactly `s` bytes, and in particular a 37-byte payload
at `s = 16` yields data lengths `[16, 16, 5]` with 3 fragments. -/
theorem chunk_sizes (st : Util) (mtu cnt : Nat) (blob : Bytes)
    (hm : st.chunkedMTU = some mtu) (hc : st.chunkedCount = some cnt)
    (h1 : 1 ≤ mtu) :
    ∃ chunks st', st.chunk blob = some (chunks, st') ∧
      (∀ c ∈ chunks, c.chunkData.length ≤ mtu) ∧
      (∀ i (hi : i < chunks.length), i + 1 < chunks.length →
        (chunks.get ⟨i, hi⟩).chunkData.length = mtu) ∧
      (blob.length = 37 → mtu = 16 →
        chunks.map (fun c => c.chunkData.length) = [16, 16, 5] ∧
        chunks.length = 3) := by
  refine ⟨_, _, chunk_eq st mtu cnt blob hm hc h1, ?_, ?_, ?_⟩
  · intro c hcmem
    simp only [List.mem_map] at hcmem
    obtain ⟨i, _, rfl⟩ := hcmem
    show (blobSlice blob (mtu * i) (min blob.length (mtu * i + mtu))).length
      ≤ mtu
    simp only [blobSlice, List.length_take, List.length_drop]
    omega
  · intro i hi hlast
    simp only [List.length_map, List.length_range] at hlast
    have hfull : mtu * i + mtu ≤ blob.length :=
      window_full_of_not_last blob.length mtu i h1 hlast
    simp only [List.get_eq_getElem, List.getElem_map, List.getElem_range]
    show (blobSlice blob (mtu * i) (min blob.length (mtu * i + mtu))).length
      = mtu
    simp only [blobSlice, List.length_take, List.length_drop]
    omega
  · intro h37 h16
    subst h16
    have hT : (blob.length + 16 - 1) / 16 = 3 := by
      rw [h37]
    constructor
    · rw [hT, (by decide : List.range 3 = [0, 1, 2])]
      simp only [List.map_cons, List.map_nil, blobSlice, List.length_take,
        List.length_drop, h37, List.cons.injEq, and_true]
      omega
    · simp only [List.length_map, List.length_range, hT]

/-- Witness for C3: the 37-byte payload `0, ..., 36` at fragment size 16. -/
theorem chunk_sizes_witness :
    ∃ chunks st',
      ({ Util.ready with chunkedMTU := some 16 } : Util).chunk
        (List.range 37) = some (chunks, st') ∧
      (∀ c ∈ chunks, c.chunkData.length ≤ 16) ∧
      (∀ i (hi : i < chunks.length), i + 1 < chunks.length →
        (chunks.get ⟨i, hi⟩).chunkData.length = 16) ∧
      ((List.range 37).length = 37 → 16 = 16 →
        chunks.map (fun c => c.chunkData.length) = [16, 16, 5] ∧
        chunks.length = 3) :=
  chunk_sizes { Util.ready with chunkedMTU := some 16 } 16 0
    (List.range 37) rfl rfl (by omega)

/-- C5: the fragment-size limit is the configuration constant
`maxChunkSize = 16300` set by the constructor; on an instance whose working
fields have been initialized to their defaults, every Fragmenter call slices
the payload into windows of 16300 bytes. -/
theorem chunk_default_mtu :
    Util.init.maxChunkSize = 16300 ∧
    Util.ready.chunkedMTU = some 16300 ∧
    ∀ blob : Bytes, ∃ chunks st',
      Util.ready.chunk blob = some (chunks, st') ∧
      ∀ i (hi : i < chunks.length),
        (chunks.get ⟨i, hi⟩).chunkData =
          (blob.drop (16300 * i)).take 16300 := by
  refine ⟨rfl, rfl, fun blob => ⟨_, _,
    chunk_eq Util.ready 16300 0 blob rfl rfl (by omega), ?_⟩⟩
  intro i hi
  simp only [List.get_eq_getElem, List.getElem_map, List.getElem_range]
  show blobSlice blob (16300 * i) (min blob.length (16300 * i + 16300)) =
    (blob.drop (16300 * i)).take 16300
  rw [blobSlice]
  rcases le_or_lt (16300 * i + 16300) blob.length with hca | hcb
  · rw [min_eq_right hca]
    have e1 : 16300 * i + 16300 - 16300 * i = 16300 := by omega
    rw [e1]
  · have hdl : (blob.drop (16300 * i)).length = blob.length - 16300 * i :=
      List.length_drop _ _
    rw [min_eq_left (by omega)]
    rw [List.take_of_length_le (by omega), List.take_of_length_le (by omega)]

/-- Witness for C5 at a concrete one-byte payload. -/
theorem chunk_default_mtu_witness :
    Util.init.maxChunkSize = 16300 ∧
    Util.ready.chunkedMTU = some 16300 ∧
    (∃ chunks st',
      Util.ready.chunk [7] = some (chunks, st') ∧
      ∀ i (hi : i < chunks.length),
        (chunks.get ⟨i, hi⟩).chunkData =
          (([7] : Bytes).drop (16300 * i)).take 16300) :=
  ⟨chunk_default_mtu.1, chunk_default_mtu.2.1, chunk_default_mtu.2.2 [7]⟩

/-- C6: the message-id counter starts at 0, every fragment of one call
carries the same `parentMsgId`, each call advances the counter by exactly 1
(also for zero-fragment calls), so the `k`-th call of a session stamps its
fragments with id `n + k`. -/
theorem chunk_msgId_counter (st : Util) (mtu n : Nat) (blobs : List Bytes)
    (hm : st.chunkedMTU = some mtu) (hc : st.chunkedCount = some n)
    (h1 : 1 ≤ mtu) :
    Util.ready.chunkedCount = some 0 ∧
    ∃ css st', chunkCalls st blobs = some (css, st') ∧
      css.length = blobs.length ∧
      st'.chunkedCount = some (n + blobs.length) ∧
      ∀ k (hk : k < css.length), ∀ c ∈ css.get ⟨k, hk⟩,
        c.parentMsgId = n + k := by
  refine ⟨rfl, ?_⟩
  obtain ⟨css, st', ha, hb, _hmtu, hd, he⟩ :=
    chunkCalls_spec mtu h1 blobs st n hm hc
  exact ⟨css, st', ha, hb, hd, he⟩

/-- Witness for C6: three calls (two-byte, empty, one-byte payloads) from a
fresh instance consume ids 0, 1, 2. -/
theorem chunk_msgId_counter_witness :
    Util.ready.chunkedCount = some 0 ∧
    ∃ css st', chunkCalls Util.ready [[1, 2], [], [3]] = some (css, st') ∧
      css.length = [[1, 2], ([] : Bytes), [3]].length ∧
      st'.chunkedCount = some (0 + [[1, 2], ([] : Bytes), [3]].length) ∧
      ∀ k (hk : k < css.length), ∀ c ∈ css.get ⟨k, hk⟩,
        c.parentMsgId = 0 + k :=
  chunk_msgId_counter Util.ready 16300 0 [[1, 2], [], [3]] rfl rfl (by omega)

/-- With a zero fragment size the loop makes no progress: for a nonempty
remaining range it never terminates, whatever the fuel. -/
theorem chunkLoop_zero_mtu (msgId total : Nat) (blob : Bytes) (size : Nat) :
    ∀ fuel start index, start < size →
      chunkLoop 0 msgId total blob size fuel start index = none := by
  intro fuel
  induction fuel with
  | zero =>
    intro start index hs
    simp [chunkLoop, if_pos hs]
  | succ fuel ih =>
    intro start index hs
    have hmin : min size (start + 0) = start := by omega
    simp only [chunkLoop, if_pos hs, hmin, ih start (index + 1) hs,
      Option.map_none']

/-- C8 counterexample: a fragment size of 0 (an instance of
`fragmentSize <= 0`) does not make the Fragmenter call fail with an error:
on the empty payload the call returns a fragment sequence (the empty one)
and bumps the counter exactly like a normal call. -/
theorem chunk_size_zero_cx :
    ({ Util.ready with chunkedMTU := some 0 } : Util).chunk [] =
      some ([], { Util.ready with
                  chunkedMTU := some 0
                  chunkedCount := some 1 }) := by decide

/-- C8 amended: the Fragmenter never validates the fragment size.  With
fragment size 0 it raises no configuration error and performs no clamping:
the empty payload yields the empty fragment sequence (a normal return), and
for any nonempty payload the fragmentation loop never terminates, so no
value and no error is ever produced. -/
theorem chunk_size_zero_amended (st : Util) (cnt : Nat)
    (hm : st.chunkedMTU = some 0) (hc : st.chunkedCount = some cnt) :
    st.chunk [] = some ([], { st with chunkedCount := some (cnt + 1) }) ∧
    ∀ blob : Bytes, blob ≠ [] →
      st.chunk blob = none ∧
      ∀ total fuel,
        chunkLoop 0 cnt total blob blob.length fuel 0 0 = none := by
  constructor
  · simp [Util.chunk, hm, hc, chunkLoop]
  · intro blob hne
    have hpos : 0 < blob.length := List.length_pos.mpr hne
    refine ⟨?_, fun total fuel =>
      chunkLoop_zero_mtu cnt total blob blob.length fuel 0 0 hpos⟩
    simp only [Util.chunk, hm, hc,
      chunkLoop_zero_mtu cnt ((blob.length + 0 - 1) / 0) blob blob.length
        blob.length 0 0 hpos,
      Option.map_none']

/-- Witness for the amended C8 at a fresh instance whose fragment size has
been set to 0. -/
theorem chunk_size_zero_amended_witness :
    ({ Util.ready with chunkedMTU := some 0 } : Util).chunk [] =
      some ([], { Util.ready with
                  chunkedMTU := some 0
                  chunkedCount := some (0 + 1) }) ∧
    ∀ blob : Bytes, blob ≠ [] →
      ({ Util.ready with chunkedMTU := some 0 } : Util).chunk blob = none ∧
      ∀ total fuel,
        chunkLoop 0 0 total blob blob.length fuel 0 0 = none :=
  chunk_size_zero_amended { Util.ready with chunkedMTU := some 0 } 0 rfl rfl

/-- C9: for every positive fragment size the fragmentation loop terminates —
the window start strictly increases on every iteration while it is below the
payload length, and the whole call returns a value. -/
theorem chunk_terminates (st : Util) (mtu cnt : Nat) (blob : Bytes)
    (hm : st.chunkedMTU = some mtu) (hc : st.chunkedCount = some cnt)
    (h1 : 1 ≤ mtu) :
    (∀ start, start < blob.length → start < min blob.length (start + mtu)) ∧
    (st.chunk blob).isSome = true := by
  refine ⟨fun start hs => by omega, ?_⟩
  rw [chunk_eq st mtu cnt blob hm hc h1]
  rfl

/-- Witness for C9 at a concrete payload. -/
theorem chunk_terminates_witness :
    (∀ start, start < ([9, 9] : Bytes).length →
      start < min ([9, 9] : Bytes).length (start + 16300)) ∧
    (Util.ready.chunk [9, 9]).isSome = true :=
  chunk_terminates Util.ready 16300 0 [9, 9] rfl rfl (by omega)

/-- C10: a Fragmenter call leaves every instance field except the
message-id counter unchanged; the counter advances by exactly one.  (The
payload is a pure value in this embedding: `Util.chunk` reads it only
through `blob.slice`, which does not mutate.) -/
theorem chunk_frame (st : Util) (blob : Bytes) (chunks : List Chunk)
    (st' : Util) (h : st.chunk blob = some (chunks, st')) :
    st'.CLOUD_HOST = st.CLOUD_HOST ∧ st'.CLOUD_PORT = st.CLOUD_PORT ∧
    st'.TURN_HOST = st.TURN_HOST ∧ st'.TURN_PORT = st.TURN_PORT ∧
    st'.debug = st.debug ∧ st'.maxChunkSize = st.maxChunkSize ∧
    st'.reconnectionAttempts = st.reconnectionAttempts ∧
    st'.sendInterval = st.sendInterval ∧ st'.logLevel = st.logLevel ∧
    st'.chunkedMTU = st.chunkedMTU ∧
    ∃ cnt, st.chunkedCount = some cnt ∧
      st'.chunkedCount = some (cnt + 1) := by
  cases hmm : st.chunkedMTU with
  | none => simp [Util.chunk, hmm] at h
  | some mtu =>
    cases hcc : st.chunkedCount with
    | none => simp [Util.chunk, hmm, hcc] at h
    | some cnt =>
      simp only [Util.chunk, hmm, hcc] at h
      cases hloop : chunkLoop mtu cnt ((blob.length + mtu - 1) / mtu) blob
          blob.length blob.length 0 0 with
      | none =>
        rw [hloop] at h
        simp at h
      | some cs =>
        rw [hloop] at h
        simp only [Option.map_some', Option.some.injEq,
          Prod.mk.injEq] at h
        obtain ⟨_hcs, hst⟩ := h
        subst hst
        exact ⟨rfl, rfl, rfl, rfl, rfl, rfl, rfl, rfl, rfl, rfl,
          cnt, rfl, rfl⟩

/-- Witness for C10: a call on the default-initialized instance with the
empty payload. -/
theorem chunk_frame_witness :
    ({ Util.ready with chunkedCount := some 1 } : Util).CLOUD_HOST =
        Util.ready.CLOUD_HOST ∧
    ({ Util.ready with chunkedCount := some 1 } : Util).CLOUD_PORT =
        Util.ready.CLOUD_PORT ∧
    ({ Util.ready with chunkedCount := some 1 } : Util).TURN_HOST =
        Util.ready.TURN_HOST ∧
    ({ Util.ready with chunkedCount := some 1 } : Util).TURN_PORT =
        Util.ready.TURN_PORT ∧
    ({ Util.ready with chunkedCount := some 1 } : Util).debug =
        Util.ready.debug ∧
    ({ Util.ready with chunkedCount := some 1 } : Util).maxChunkSize =
        Util.ready.maxChunkSize ∧
    ({ Util.ready with chunkedCount := some 1 } : Util).reconnectionAttempts =
        Util.ready.reconnectionAttempts ∧
    ({ Util.ready with chunkedCount := some 1 } : Util).sendInterval =
        Util.ready.sendInterval ∧
    ({ Util.ready with chunkedCount := some 1 } : Util).logLevel =
        Util.ready.logLevel ∧
    ({ Util.ready with chunkedCount := some 1 } : Util).chunkedMTU =
        Util.ready.chunkedMTU ∧
    ∃ cnt, Util.ready.chunkedCount = some cnt ∧
      ({ Util.ready with chunkedCount := some 1 } : Util).chunkedCount =
        some (cnt + 1) :=
  chunk_frame Util.ready [] [] { Util.ready with chunkedCount := some 1 }
    (by decide)
